import Mathlib

/-!
The command `reverb`: a convolution reverb for WAV and AIFF files.

A shallow embedding of `main.go` and the properties of its buffers, channel
handling, scaling and block loop.

Conventions of the embedding

* Go `int` values are `Int`; slice lengths and loop counters never approach
  the machine word here, so no wrap-around is modelled.
* `float64` samples are exact rationals (`ℚ`): every statement below is about
  the arithmetic the code asks for, not about binary rounding.
* A run-time panic is a value of `Panic`; a Go `error` is a value of `Error`.
* The file system, the WAV/AIFF decoders and the encoder are outside the
  program: what they answer is an input of the model.
-/

namespace Reverb

/-! ## Data model -/

/-- Run-time panics the Go code can raise. -/
inductive Panic where
  | indexOutOfRange
  | sliceBounds
  | divideByZero
  | negativeLen
  | nilDereference
  deriving DecidableEq, Repr

/-- Go `error` values met by `run` and `loadFile`. -/
inductive Error where
  | os (msg : String)
  | pcm (msg : String)
  | filetypeUnsupported (ext : String)
  | onlyMonoAndStereo
  | invalidBlockSize
  deriving DecidableEq, Repr

/-- How a call of the program's core can end without a value: a panic, or an
`error` handed back to the caller. -/
inductive Failure where
  | panic (p : Panic)
  | error (e : Error)
  deriving DecidableEq, Repr

/-- The record `audio.Format`. -/
structure Format where
  NumChannels : Int
  SampleRate : Int
  deriving DecidableEq, Repr

/-- The record `audio.FloatBuffer`: interleaved samples and their format. -/
structure FloatBuffer where
  Format : Format
  Data : List ℚ
  deriving DecidableEq, Repr

/-- The record `audio.IntBuffer`: interleaved integer PCM samples. -/
structure IntBuffer where
  Format : Format
  Data : List Int
  SourceBitDepth : Int
  deriving DecidableEq, Repr

/-- Conversion `(*audio.IntBuffer).AsFloatBuffer`: each integer sample becomes
the floating-point number of the same value. -/
def IntBuffer.AsFloatBuffer (b : IntBuffer) : FloatBuffer :=
  { Format := b.Format, Data := List.map (fun (s : Int) => (s : ℚ)) b.Data }

/-! ## Slices -/

/-- Indexing `s[k]` of a Go slice: panics outside `0 ≤ k < len(s)`. -/
def index {α : Type} (s : List α) (k : Int) : Except Panic α :=
  if k < 0 then .error .indexOutOfRange
  else
    match s[k.toNat]? with
    | some v => .ok v
    | none => .error .indexOutOfRange

/-- Re-slicing `s[lo:]` of a Go slice: panics outside `0 ≤ lo ≤ len(s)`. -/
def sliceFrom {α : Type} (s : List α) (lo : Int) : Except Panic (List α) :=
  if 0 ≤ lo ∧ lo ≤ (s.length : Int) then .ok (s.drop lo.toNat)
  else .error .sliceBounds

/-- A counted Go loop `for k := i; k < i + n; k++` that builds one element per
round and stops at the first panic. -/
def forRange {α : Type} (body : Nat → Except Panic α) : Nat → Nat → Except Panic (List α)
  | _, 0 => .ok []
  | i, n + 1 =>
    match body i with
    | .error e => .error e
    | .ok v =>
      match forRange body (i + 1) n with
      | .error e => .error e
      | .ok vs => .ok (v :: vs)

/-! ## `min` -/

/-- The function `min` of `main.go`. -/
def min (a b : Int) : Int :=
  if a < b then a else b

/-! ## `splitChannels` -/

/-- The function `splitChannels` of `main.go`.

`chanLen` is `len(b.Data) / numChans` (integer division, panics for zero
channels), `make([][]float64, numChans)` panics for a negative count, and the
element stored at `chans[i][j]` is `data[i*numChans+j]`. -/
def splitChannels (b : FloatBuffer) : Except Panic (List (List ℚ)) :=
  let numChans := b.Format.NumChannels
  let data := b.Data
  if numChans = 0 then .error .divideByZero
  else
    let chanLen := Int.tdiv (data.length : Int) numChans
    if numChans < 0 then .error .negativeLen
    else
      forRange
        (fun i => forRange (fun j => index data ((i : Int) * numChans + (j : Int))) 0 chanLen.toNat)
        0 numChans.toNat

/-! ## `pcmScaleDown` -/

/-- The function `pcmScaleDown` of `main.go`: every sample is divided by
`2 ^ (8 * (bitDepth / 8) - 1)`, the quotient `bitDepth / 8` being Go's integer
division; the returned error is always `nil`. -/
def pcmScaleDown (buf : FloatBuffer) (bitDepth : Int) : FloatBuffer × Option Error :=
  let factor : ℚ := (2 : ℚ) ^ (8 * Int.tdiv bitDepth 8 - 1)
  ({ Format := buf.Format, Data := buf.Data.map (fun x => x / factor) }, none)

/-! ## `loadFile` -/

/-- What the outside world answers for one path: the error of `os.Open`, the
extension `filepath.Ext` finds, and the buffer and error each decoder's
`FullPCMBuffer` returns for the opened file. -/
structure PathAnswer where
  openErr : Option Error
  ext : String
  wavPCM : Option IntBuffer × Option Error
  aiffPCM : Option IntBuffer × Option Error

/-- The function `loadFile` of `main.go`, as a function of the outside world's
answer for the path. The pair is Go's `(*audio.FloatBuffer, error)`, `none`
standing for `nil`. After a decoding error the code returns `nil, err`, where
`err` is the variable assigned by `os.Open`. -/
def loadFile (p : PathAnswer) : Except Panic (Option FloatBuffer × Option Error) :=
  let err := p.openErr
  if err ≠ none then .ok (none, err)
  else
    let decode (r : Option IntBuffer × Option Error) :
        Except Panic (Option FloatBuffer × Option Error) :=
      let intBuf := r.1
      let pcmErr := r.2
      if pcmErr ≠ none then .ok (none, err)
      else
        match intBuf with
        | none => .error .nilDereference
        | some intBuf =>
          if intBuf.Format.NumChannels > 2 then .ok (none, some .onlyMonoAndStereo)
          else
            let floatBuf := intBuf.AsFloatBuffer
            match pcmScaleDown floatBuf intBuf.SourceBitDepth with
            | (_, some e) => .ok (none, some e)
            | (scaled, none) => .ok (some scaled, none)
    if p.ext = ".wav" then decode p.wavPCM
    else if p.ext = ".aiff" then decode p.aiffPCM
    else .ok (none, some (.filetypeUnsupported p.ext))

/-! ## The channel mapper of `run` -/

/-- The closure `irChannel` of `run`: `lchan` is `len(irChannels) - 1`; an index
above it reads `irChannels[lchan]`, any other reads `irChannels[i]`. -/
def irChannel (irChannels : List (List ℚ)) (i : Int) : Except Panic (List ℚ) :=
  let lchan : Int := (irChannels.length : Int) - 1
  if i > lchan then index irChannels lchan
  else index irChannels i

/-! ## The output buffer of `run` -/

/-- The allocation `make([]float64, len(input.Data)+len(ir.Data)-1)` of `run`:
a zeroed slice, or a panic when the length is negative. -/
def allocOut (input ir : FloatBuffer) : Except Panic (List ℚ) :=
  let n : Int := (input.Data.length : Int) + (ir.Data.length : Int) - 1
  if n < 0 then .error .negativeLen
  else .ok (List.replicate n.toNat 0)

/-! ## The partitioned convolver -/

/-- Modelled from the spec: a convolver instance, bound at creation to a block
size, one impulse-response channel, and the output channel `channel` of
`numChannels`. -/
structure Convolver where
  blockSize : Int
  ir : List ℚ
  channel : Nat
  numChannels : Nat
  deriving DecidableEq, Repr

/-- Modelled from the spec: the constructor `fourier.NewConvolver` with the
option `fourier.ForChannel`, whose code is not part of `main.go`. It validates
`B > 0` and fails with an invalid-block-size error otherwise; it binds the
block size, the impulse-response channel and the channel tag. -/
def NewConvolver (blockSize : Int) (ir : List ℚ) (channel numChannels : Nat) :
    Except Error Convolver :=
  if blockSize ≤ 0 then .error .invalidBlockSize
  else .ok { blockSize := blockSize, ir := ir, channel := channel, numChannels := numChannels }

/-- Modelled from the spec: one overlap-add accumulation `out[k] += v` into the
output window; a write outside the window is an out-of-bounds write. -/
def addAt (out : List ℚ) (k : Nat) (v : ℚ) : Except Panic (List ℚ) :=
  match out[k]? with
  | some o => .ok (out.set k (o + v))
  | none => .error .indexOutOfRange

/-- Modelled from the spec: the overlap-add accumulation of a list of
contributions `(position, value)` into the output window, in order. -/
def accumulate (out : List ℚ) : List (Nat × ℚ) → Except Panic (List ℚ)
  | [] => .ok out
  | w :: ws =>
    match addAt out w.1 w.2 with
    | .error e => .error e
    | .ok out' => accumulate out' ws

/-- Modelled from the spec: the impulse response split into `⌈len(ir)/B⌉`
partitions of size `B` (the last one may be shorter), each paired with the
position `partition_index * B` of its first sample. -/
def Convolver.partitions (cv : Convolver) : List (Nat × List ℚ) :=
  let B := cv.blockSize.toNat
  List.map (fun (p : Nat) => (p * B, (cv.ir.drop (p * B)).take B))
    (List.range ((cv.ir.length + B - 1) / B))

/-- Modelled from the spec: the contributions of one input block. The block is
the first `numSamples` samples of the convolver's channel in the input window
(sample `j` of channel `c` lives at index `j*C + c`; fewer when the window is
shorter). The block is multiplied against every partition of the impulse
response, and each product goes to the region of the output window shifted by
`partition_index * B`: input sample `j` times sample `k` of the partition that
starts at `s` lands on sample `j + s + k` of the same channel. -/
def Convolver.contributions (cv : Convolver) (inp : List ℚ) (numSamples : Nat) :
    List (Nat × ℚ) :=
  cv.partitions.flatMap fun part =>
    (List.range numSamples).flatMap fun j =>
      match inp[j * cv.numChannels + cv.channel]? with
      | none => []
      | some x =>
        (part.2.enumFrom part.1).map fun kh =>
          ((j + kh.1) * cv.numChannels + cv.channel, x * kh.2)

/-- Modelled from the spec: the operation `Convolve(out, in, numSamples)` of
`fourier.Convolver`, whose code is not part of `main.go`. It consumes up to
`numSamples` input samples from the input window and accumulates their
contribution, partition by partition, into the output window (overlap-add).
The frequency-domain product of a block and a partition is taken as what it
computes, their linear convolution. -/
def Convolver.Convolve (cv : Convolver) (out inp : List ℚ) (numSamples : Int) :
    Except Panic (List ℚ) :=
  accumulate out (cv.contributions inp numSamples.toNat)

/-! ## `run`: convolvers and block loop -/

/-- The loop `for i := range convolvers` of `run` that builds one convolver per
input channel, `irChannel(i)` bound to channel `i`; it returns the first
constructor error. -/
def newConvolvers (blockSize : Int) (irChannels : List (List ℚ)) (numChannels : Nat) :
    Nat → Nat → Except Failure (List Convolver)
  | _, 0 => .ok []
  | i, n + 1 =>
    match irChannel irChannels (i : Int) with
    | .error p => .error (.panic p)
    | .ok h =>
      match NewConvolver blockSize h i numChannels with
      | .error cErr => .error (.error cErr)
      | .ok cv =>
        match newConvolvers blockSize irChannels numChannels (i + 1) n with
        | .error e => .error e
        | .ok cvs => .ok (cv :: cvs)

/-- The inner loop `for _, conv := range convolvers` of `run` at offset `i`:
each convolver is given the windows `out[i:]` and `in[min(i, len(in)):]`, and
what it writes into its output window is written into `out`. -/
def convolveAll (inp : List ℚ) (blockSize : Int) (i : Int) :
    List Convolver → List ℚ → Except Failure (List ℚ)
  | [], out => .ok out
  | conv :: rest, out =>
    match sliceFrom out i with
    | .error p => .error (.panic p)
    | .ok outWin =>
      match sliceFrom inp (min i (inp.length : Int)) with
      | .error p => .error (.panic p)
      | .ok inWin =>
        match conv.Convolve outWin inWin blockSize with
        | .error p => .error (.panic p)
        | .ok outWin' => convolveAll inp blockSize i rest (out.take i.toNat ++ outWin')

/-- The loop `for i := start; i < bound; i += step { body }`, with `fuel`
bounding the number of rounds: `none` when the fuel runs out first. -/
def blockLoop {σ : Type} (body : Int → σ → Except Failure σ) (step bound : Int) :
    Nat → Int → σ → Option (Except Failure σ)
  | 0, _, _ => none
  | fuel + 1, i, s =>
    if i < bound then
      match body i s with
      | .error e => some (.error e)
      | .ok s' => blockLoop body step bound fuel (i + step) s'
    else some (.ok s)

/-- The body of a loop run at each offset of a list, in order, stopping at the
first failure. -/
def visitOffsets {σ : Type} (body : Int → σ → Except Failure σ) : List Int → σ → Except Failure σ
  | [], s => .ok s
  | i :: rest, s =>
    match body i s with
    | .error e => .error e
    | .ok s' => visitOffsets body rest s'

/-- The offsets `start, start + step, start + 2*step, ...`, the first `n` of
them. -/
def offsetsFrom (start step : Int) (n : Nat) : List Int :=
  List.map (fun (k : Nat) => start + (k : Int) * step) (List.range n)

/-- The core of `run` between the two loaded buffers and the finished output
buffer: `splitChannels(ir)`, one convolver per input channel, the allocation
of `out`, and the block loop
`for i := 0; i < len(out); i += numChannels * blockSize`. -/
def run (input ir : FloatBuffer) (blockSize : Int) (fuel : Nat) :
    Option (Except Failure (List ℚ)) :=
  let numChannels := input.Format.NumChannels
  match splitChannels ir with
  | .error p => some (.error (.panic p))
  | .ok irChannels =>
    if numChannels < 0 then some (.error (.panic .negativeLen))
    else
      match newConvolvers blockSize irChannels numChannels.toNat 0 numChannels.toNat with
      | .error e => some (.error e)
      | .ok convolvers =>
        match allocOut input ir with
        | .error p => some (.error (.panic p))
        | .ok out =>
          let inp := input.Data
          blockLoop (fun i o => convolveAll inp blockSize i convolvers o)
            (numChannels * blockSize) (out.length : Int) fuel 0 out

/-- The start of `run`: both files are loaded, an error of either load is
returned, and otherwise the buffers go to the core; reading
`input.Format.NumChannels` or the impulse response through a `nil` buffer
panics. -/
def runFiles (inFile irFile : PathAnswer) (blockSize : Int) (fuel : Nat) :
    Option (Except Failure (List ℚ)) :=
  match loadFile inFile with
  | .error p => some (.error (.panic p))
  | .ok (input, err) =>
    if let some e := err then some (.error (.error e))
    else
      match loadFile irFile with
      | .error p => some (.error (.panic p))
      | .ok (ir, err) =>
        if let some e := err then some (.error (.error e))
        else
          match input, ir with
          | some input, some ir => run input ir blockSize fuel
          | _, _ => some (.error (.panic .nilDereference))

/-! ## The full linear convolution, as a formula -/

/-- The full linear convolution of `x` and `h` at output position `n`, written
as the sum the specification states: `sum over k of x[k] * h[n-k]`, samples
outside a sequence counting as `0`. -/
def linearConvolution (x h : List ℚ) (n : Nat) : ℚ :=
  ∑ k in Finset.range (n + 1), x.getD k 0 * h.getD (n - k) 0

/-- The total a list of contributions adds at position `n`. -/
def tally (ws : List (Nat × ℚ)) (n : Nat) : ℚ :=
  (ws.map fun w => if w.1 = n then w.2 else 0).sum

/-- The part of the linear convolution of `x` and `h` at position `n` that the
first `t` input samples account for. -/
def convolutionUpTo (x h : List ℚ) (t n : Nat) : ℚ :=
  ∑ j in Finset.range t, if j ≤ n then x.getD j 0 * h.getD (n - j) 0 else 0

/-! ## `prepareOutput` -/

/-- Modelled from the spec: the scan of `transforms.NormalizeMax` for
`peak = max |sample|` over all samples, starting from `0`. -/
def peak (data : List ℚ) : ℚ :=
  data.foldl (fun m x => if |x| > m then |x| else m) 0

/-- Modelled from the spec: the division `x / d` of `transforms.NormalizeMax`,
reporting a zero divisor. -/
def checkedDiv (x d : ℚ) : Option ℚ :=
  if d = 0 then none else some (x / d)

/-- Modelled from the spec: `transforms.NormalizeMax`, whose code is not part of
`main.go`. It scans all samples for `peak = max |sample|`; if `peak > 0`
every sample is scaled by `1/peak`, and if `peak == 0` the buffer is left
unchanged. `none` reports a division by zero. -/
def NormalizeMax (data : List ℚ) : Option (List ℚ) :=
  let p := peak data
  if p > 0 then
    match checkedDiv 1 p with
    | none => none
    | some scale => some (data.map (fun x => x * scale))
  else some data

/-- The first two steps of `prepareOutput` of `main.go`: `NormalizeMax`, then
every sample times `0.99`. The buffer is then handed to `transforms.PCMScale`. -/
def prepareOutputHeadroom (data : List ℚ) : Option (List ℚ) :=
  match NormalizeMax data with
  | none => none
  | some normalized => some (normalized.map (fun x => x * (99 / 100)))

/-- The function `prepareOutput` of `main.go`, the external `transforms.PCMScale`
being a parameter. -/
def prepareOutput (PCMScale : List ℚ → Int → List ℚ) (data : List ℚ) (f : Format)
    (bitDepth : Int) : Option FloatBuffer :=
  match prepareOutputHeadroom data with
  | none => none
  | some scaled => some { Format := f, Data := PCMScale scaled bitDepth }

/-! ## Lemmas on slices and counted loops -/

theorem index_ok {α : Type} (s : List α) (k : Nat) (h : k < s.length) :
    index s (k : Int) = .ok (s.get ⟨k, h⟩) := by
  simp [index, List.getElem?_eq_getElem h]

theorem forRange_length {α : Type} (body : Nat → Except Panic α) :
    ∀ (n i : Nat) (vs : List α), forRange body i n = .ok vs → vs.length = n := by
  intro n
  induction n with
  | zero => intro i vs h; simp [forRange] at h; simp [← h]
  | succ n ih =>
    intro i vs h
    simp only [forRange] at h
    cases hb : body i with
    | error e => simp [hb] at h
    | ok v =>
      cases hr : forRange body (i + 1) n with
      | error e => simp [hb, hr] at h
      | ok ws =>
        simp [hb, hr] at h
        subst h
        simp [ih (i + 1) ws hr]

theorem forRange_mem {α : Type} (body : Nat → Except Panic α) :
    ∀ (n i : Nat) (vs : List α), forRange body i n = .ok vs →
      ∀ v ∈ vs, ∃ k, i ≤ k ∧ k < i + n ∧ body k = .ok v := by
  intro n
  induction n with
  | zero => intro i vs h; simp [forRange] at h; subst h; simp
  | succ n ih =>
    intro i vs h v hv
    simp only [forRange] at h
    cases hb : body i with
    | error e => simp [hb] at h
    | ok w =>
      cases hr : forRange body (i + 1) n with
      | error e => simp [hb, hr] at h
      | ok ws =>
        simp [hb, hr] at h
        subst h
        rcases List.mem_cons.mp hv with rfl | hmem
        · exact ⟨i, le_refl i, by omega, hb⟩
        · obtain ⟨k, hk1, hk2, hk3⟩ := ih (i + 1) ws hr v hmem
          exact ⟨k, by omega, by omega, hk3⟩

theorem forRange_ok {α : Type} (body : Nat → Except Panic α) (g : Nat → α) :
    ∀ (n i : Nat), (∀ k, i ≤ k → k < i + n → body k = .ok (g k)) →
      forRange body i n = .ok ((List.range' i n).map g) := by
  intro n
  induction n with
  | zero => intro i _; simp [forRange]
  | succ n ih =>
    intro i h
    have h0 : body i = .ok (g i) := h i (le_refl i) (by omega)
    have hr := ih (i + 1) (fun k hk1 hk2 => h k (by omega) (by omega))
    simp [forRange, h0, hr, List.range'_succ]

theorem index_ok_getD (s : List ℚ) (k : Nat) (h : k < s.length) :
    index s (k : Int) = .ok (s.getD k 0) := by
  simp [index, List.getElem?_eq_getElem h]

theorem index_error {α : Type} (s : List α) (k : Int) (e : Panic)
    (h : index s k = .error e) : e = .indexOutOfRange := by
  unfold index at h
  split at h
  · injection h with h; exact h.symm
  · split at h
    · cases h
    · injection h with h; exact h.symm

theorem forRange_error {α : Type} (body : Nat → Except Panic α) :
    ∀ (n i : Nat) (e : Panic), forRange body i n = .error e → ∃ k, body k = .error e := by
  intro n
  induction n with
  | zero => intro i e h; simp [forRange] at h
  | succ n ih =>
    intro i e h
    simp only [forRange] at h
    cases hb : body i with
    | error e2 =>
      simp [hb] at h
      exact ⟨i, by rw [hb, h]⟩
    | ok w =>
      cases hr : forRange body (i + 1) n with
      | error e2 =>
        simp [hb, hr] at h
        subst h
        exact ih (i + 1) e2 hr
      | ok ws => simp [hb, hr] at h

theorem map_getD_range (l : List ℚ) :
    (List.range' 0 l.length).map (fun j => l.getD j 0) = l := by
  apply List.ext_getElem
  · simp
  · intro n h1 h2
    simp [List.getElem?_eq_getElem h2]

/-! ## What `splitChannels` computes -/

/-- The shape of `splitChannels` for `C ≥ 1` channels: two nested counted
loops, the inner one reading `data[i*C + j]`. -/
theorem splitChannels_unfold (b : FloatBuffer) (C : Nat) (hC : b.Format.NumChannels = (C : Int))
    (hpos : 1 ≤ C) :
    splitChannels b =
      forRange (fun i => forRange (fun j => index b.Data (((i * C + j : Nat)) : Int)) 0
        (b.Data.length / C)) 0 C := by
  have h0 : ¬ ((C : Int) = 0) := by omega
  have h1 : ¬ ((C : Int) < 0) := by omega
  simp only [splitChannels, hC, h0, h1, if_false, ← Int.ofNat_tdiv, Int.toNat_ofNat]
  simp only [Nat.cast_add, Nat.cast_mul]

/-- When every read `data[i*C + j]` is in range, `splitChannels` returns the
channels `chans[i][j] = data[i*C + j]`. -/
theorem splitChannels_ok (b : FloatBuffer) (C : Nat) (hC : b.Format.NumChannels = (C : Int))
    (hpos : 1 ≤ C)
    (hin : ∀ i, i < C → ∀ j, j < b.Data.length / C → i * C + j < b.Data.length) :
    splitChannels b = .ok ((List.range' 0 C).map fun i =>
      (List.range' 0 (b.Data.length / C)).map fun j => b.Data.getD (i * C + j) 0) := by
  rw [splitChannels_unfold b C hC hpos]
  apply forRange_ok
  intro i _ hi
  apply forRange_ok
  intro j _ hj
  exact index_ok_getD b.Data (i * C + j) (hin i (by omega) j (by omega))

/-- A mono buffer is its own single channel. -/
theorem splitChannels_mono (sr : Int) (data : List ℚ) :
    splitChannels { Format := { NumChannels := 1, SampleRate := sr }, Data := data } =
      .ok [data] := by
  rw [splitChannels_ok _ 1 rfl (le_refl 1) (by
    intro i hi j hj
    simp only [Nat.div_one] at hj
    obtain rfl : i = 0 := by omega
    simpa using hj)]
  have h := map_getD_range data
  simp at h
  simp [h]

/-! ## The channel mapper -/

/-- C5: for an output channel index `i ≥ 0` and `C_ir ≥ 1` impulse-response
channels, `irChannel i` returns channel number `min i (C_ir - 1)`, which is in
range; with a mono impulse response every index gets the single channel. -/
theorem irChannel_clamps (irChannels : List (List ℚ)) (i : Int) (hi : 0 ≤ i)
    (hC : 1 ≤ irChannels.length) :
    (∃ ch, irChannel irChannels i = .ok ch ∧
      Min.min i.toNat (irChannels.length - 1) < irChannels.length ∧
      irChannels[Min.min i.toNat (irChannels.length - 1)]? = some ch) ∧
    (∀ h0, irChannels = [h0] → irChannel irChannels i = .ok h0) := by
  obtain ⟨k, rfl⟩ := Int.eq_ofNat_of_zero_le hi
  have key : ∃ ch, irChannel irChannels (k : Int) = .ok ch ∧
      Min.min k (irChannels.length - 1) < irChannels.length ∧
      irChannels[Min.min k (irChannels.length - 1)]? = some ch := by
    by_cases hk : (k : Int) > (irChannels.length : Int) - 1
    · have hlt : irChannels.length - 1 < irChannels.length := by omega
      have hcast : ((irChannels.length : Int) - 1) = ((irChannels.length - 1 : Nat) : Int) := by
        omega
      have hmin : Min.min k (irChannels.length - 1) = irChannels.length - 1 :=
        Nat.min_eq_right (by omega)
      refine ⟨irChannels.get ⟨irChannels.length - 1, hlt⟩, ?_, ?_, ?_⟩
      · simp only [irChannel, hk, if_true]
        rw [hcast]
        exact index_ok irChannels _ hlt
      · rw [hmin]; exact hlt
      · rw [hmin]; exact List.getElem?_eq_getElem hlt
    · have hlt : k < irChannels.length := by omega
      have hmin : Min.min k (irChannels.length - 1) = k := Nat.min_eq_left (by omega)
      refine ⟨irChannels.get ⟨k, hlt⟩, ?_, ?_, ?_⟩
      · simp only [irChannel, hk, if_false]
        exact index_ok irChannels _ hlt
      · rw [hmin]; exact hlt
      · rw [hmin]; exact List.getElem?_eq_getElem hlt
  refine ⟨by simpa using key, ?_⟩
  intro h0 hmono
  subst hmono
  obtain ⟨ch, hch, _, hget⟩ := key
  have hz : Min.min k ([h0].length - 1) = 0 := by simp
  rw [hz] at hget
  simp at hget
  rw [hch, hget]

/-- Witness of C5: a mono impulse response asked for the second channel of a
stereo input. -/
theorem irChannel_clamps_witness :
    (∃ ch, irChannel [[1, 2]] 1 = .ok ch ∧
      Min.min (1 : Int).toNat ([[(1 : ℚ), 2]].length - 1) < [[(1 : ℚ), 2]].length ∧
      [[(1 : ℚ), 2]][Min.min (1 : Int).toNat ([[(1 : ℚ), 2]].length - 1)]? = some ch) ∧
    (∀ h0, [[(1 : ℚ), 2]] = [h0] → irChannel [[1, 2]] 1 = .ok h0) :=
  irChannel_clamps [[1, 2]] 1 (by decide) (by decide)

/-! ## De-interleaving -/

/-- C2 (the code departs from the claim): on the stereo buffer `[1, 2, 3, 4]`
`splitChannels` returns `[[1, 2], [3, 4]]`, so position `1` of channel `0` holds
`2`, whereas sample `1*2 + 0` of the source is `3`. -/
theorem splitChannels_stereo_not_interleaved :
    splitChannels { Format := { NumChannels := 2, SampleRate := 44100 }, Data := [1, 2, 3, 4] }
      = .ok [[1, 2], [3, 4]] ∧
    ([[(1 : ℚ), 2], [3, 4]].getD 0 []).getD 1 0 = 2 ∧
    ([1, 2, 3, 4] : List ℚ).getD (1 * 2 + 0) 0 = 3 := by
  refine ⟨by rfl, by rfl, by rfl⟩

/-- C9 (the code departs from the claim): on a stereo buffer of one frame,
`[1, 2]`, whose length is divisible by the channel count, `splitChannels`
reads `data[2]` and panics with an index out of range. -/
theorem splitChannels_one_stereo_frame_panics :
    splitChannels { Format := { NumChannels := 2, SampleRate := 44100 }, Data := [1, 2] }
      = .error .indexOutOfRange := by
  rfl

/-- C7, counterexample: the stereo buffer `[1, 2, 3]` has a length that is not
divisible by its channel count, and `splitChannels` returns channel sequences
for it. -/
theorem splitChannels_odd_stereo_returns :
    ¬ ((2 : Int) ∣ (([1, 2, 3] : List ℚ).length : Int)) ∧
    splitChannels { Format := { NumChannels := 2, SampleRate := 44100 }, Data := [1, 2, 3] }
      = .ok [[1], [3]] := by
  refine ⟨by decide, by rfl⟩

/-- C7, amended: for a buffer with `C ≥ 1` channels whose length is not
divisible by `C`, `splitChannels` has no malformed-buffer failure. Whenever it
returns it returns `C` sequences of `⌊length / C⌋` samples each, for `C ≤ 2` it
always returns, and the only way it can fail is an index-out-of-range panic. -/
theorem splitChannels_indivisible (b : FloatBuffer) (hC : 1 ≤ b.Format.NumChannels)
    (hnd : ¬ (b.Format.NumChannels ∣ (b.Data.length : Int))) :
    (∀ chans, splitChannels b = .ok chans →
      chans.length = b.Format.NumChannels.toNat ∧
      ∀ ch ∈ chans, ch.length = b.Data.length / b.Format.NumChannels.toNat) ∧
    (b.Format.NumChannels ≤ 2 → ∃ chans, splitChannels b = .ok chans) ∧
    (∀ e, splitChannels b = .error e → e = .indexOutOfRange) := by
  obtain ⟨C, hCeq⟩ := Int.eq_ofNat_of_zero_le (by omega : 0 ≤ b.Format.NumChannels)
  have hpos : 1 ≤ C := by omega
  have hun := splitChannels_unfold b C hCeq hpos
  have htoNat : b.Format.NumChannels.toNat = C := by rw [hCeq]; simp
  refine ⟨?_, ?_, ?_⟩
  · intro chans hok
    rw [hun] at hok
    rw [htoNat]
    refine ⟨forRange_length _ _ _ _ hok, ?_⟩
    intro ch hch
    obtain ⟨k, _, _, hk⟩ := forRange_mem _ _ _ _ hok ch hch
    exact forRange_length _ _ _ _ hk
  · intro h2
    have hC2 : C = 2 := by
      rcases Nat.lt_or_ge C 2 with h | h
      · have h1 : C = 1 := by omega
        exfalso
        apply hnd
        rw [hCeq, h1]
        exact one_dvd _
      · omega
    subst hC2
    have hodd : b.Data.length % 2 = 1 := by
      rcases Nat.mod_two_eq_zero_or_one b.Data.length with h | h
      · exfalso
        apply hnd
        rw [hCeq]
        exact Int.natCast_dvd_natCast.mpr (Nat.dvd_of_mod_eq_zero h)
      · exact h
    exact ⟨_, splitChannels_ok b 2 hCeq hpos (by intro i hi j hj; omega)⟩
  · intro e herr
    rw [hun] at herr
    obtain ⟨i, hi⟩ := forRange_error _ _ _ _ herr
    obtain ⟨j, hj⟩ := forRange_error _ _ _ _ hi
    exact index_error _ _ _ hj

/-- Witness of C7, amended: the stereo buffer `[1, 2, 3]`. -/
theorem splitChannels_indivisible_witness :
    (∀ chans,
      splitChannels { Format := { NumChannels := 2, SampleRate := 44100 }, Data := [1, 2, 3] }
        = .ok chans →
      chans.length = (2 : Int).toNat ∧
      ∀ ch ∈ chans, ch.length = ([1, 2, 3] : List ℚ).length / (2 : Int).toNat) ∧
    ((2 : Int) ≤ 2 → ∃ chans,
      splitChannels { Format := { NumChannels := 2, SampleRate := 44100 }, Data := [1, 2, 3] }
        = .ok chans) ∧
    (∀ e,
      splitChannels { Format := { NumChannels := 2, SampleRate := 44100 }, Data := [1, 2, 3] }
        = .error e → e = .indexOutOfRange) :=
  splitChannels_indivisible
    { Format := { NumChannels := 2, SampleRate := 44100 }, Data := [1, 2, 3] }
    (by decide) (by decide)

/-! ## The output allocation -/

/-- The buffer `run` allocates has `len(input.Data) + len(ir.Data) - 1`
interleaved samples. -/
theorem allocOut_length (input ir : FloatBuffer)
    (h : 1 ≤ input.Data.length + ir.Data.length) :
    allocOut input ir = .ok (List.replicate (input.Data.length + ir.Data.length - 1) 0) := by
  have hn : ¬ ((input.Data.length : Int) + (ir.Data.length : Int) - 1 < 0) := by omega
  have hcast : (input.Data.length : Int) + (ir.Data.length : Int) - 1
      = ((input.Data.length + ir.Data.length - 1 : Nat) : Int) := by omega
  simp only [allocOut, hn, if_false]
  rw [hcast, Int.toNat_ofNat]

/-- C1 (the code departs from the claim): for a stereo input of `N = 1` frame
and a mono impulse response of `M = 3` samples the allocated buffer has `4`
interleaved samples, not `C_in * (N + M - 1) = 6`; for a stereo input of one
frame and a stereo impulse response of one frame it has `3` samples, not
`C_in * (N + M - 1) = 2`, and `3` is not a whole number of stereo frames. -/
theorem allocOut_stereo_input_length :
    (∃ out, allocOut { Format := { NumChannels := 2, SampleRate := 44100 }, Data := [1, 1] }
        { Format := { NumChannels := 1, SampleRate := 44100 }, Data := [1 / 2, 1 / 4, 1 / 8] }
        = .ok out ∧
      out.length = 4 ∧
      2 * (([1, 1] : List ℚ).length / 2 + ([1 / 2, 1 / 4, 1 / 8] : List ℚ).length / 1 - 1) = 6) ∧
    (∃ out, allocOut { Format := { NumChannels := 2, SampleRate := 44100 }, Data := [1, 1] }
        { Format := { NumChannels := 2, SampleRate := 44100 }, Data := [1, 1] }
        = .ok out ∧
      out.length = 3 ∧ out.length % 2 = 1 ∧
      2 * (([1, 1] : List ℚ).length / 2 + ([1, 1] : List ℚ).length / 2 - 1) = 2) := by
  refine ⟨⟨_, allocOut_length _ _ (by decide), by rfl, by rfl⟩,
    ⟨_, allocOut_length _ _ (by decide), by rfl, by rfl, by rfl⟩⟩

/-! ## Loading -/

/-- C6 (the code departs from the claim): for a `.wav` or `.aiff` path that
opens and whose decoding returns an error, `loadFile` returns `nil, nil`, and
`run`, given such an input file next to a sound impulse-response file, goes on
and panics on the `nil` buffer instead of returning an error. -/
theorem loadFile_decode_error_is_dropped (buf : Option IntBuffer) (e : Error)
    (other : Option IntBuffer × Option Error) (blockSize : Int) (fuel : Nat) :
    loadFile { openErr := none, ext := ".wav", wavPCM := (buf, some e), aiffPCM := other }
      = .ok (none, none) ∧
    loadFile { openErr := none, ext := ".aiff", wavPCM := other, aiffPCM := (buf, some e) }
      = .ok (none, none) ∧
    runFiles { openErr := none, ext := ".wav", wavPCM := (buf, some e), aiffPCM := other }
      { openErr := none, ext := ".wav",
        wavPCM := (some { Format := { NumChannels := 1, SampleRate := 44100 }, Data := [1],
                          SourceBitDepth := 16 }, none),
        aiffPCM := (none, none) } blockSize fuel
      = some (.error (.panic .nilDereference)) := by
  refine ⟨by simp [loadFile], by simp [loadFile], ?_⟩
  simp [runFiles, loadFile, pcmScaleDown]

/-! ## Scaling integer PCM down -/

/-- For a bit depth that is a positive multiple of `8` the divisor of
`pcmScaleDown` is `2 ^ (D - 1)`. -/
theorem pcmScaleDown_factor (D : Int) (hD : 0 < D) (h8 : 8 ∣ D) :
    (2 : ℚ) ^ (8 * Int.tdiv D 8 - 1) = (2 : ℚ) ^ (D - 1).toNat := by
  obtain ⟨q, rfl⟩ := h8
  have hq : Int.tdiv (8 * q) 8 = q := Int.mul_tdiv_cancel_left q (by decide)
  rw [hq, ← zpow_natCast]
  congr 1
  omega

/-- C8, counterexample: at bit depth `12` the sample `2047` is within
`-2^11 .. 2^11 - 1`, and `pcmScaleDown` turns it into `2047/128`, above `1`. -/
theorem pcmScaleDown_12bit_out_of_range :
    (1 : Int) ≤ 12 ∧ -(2 : Int) ^ 11 ≤ 2047 ∧ (2047 : Int) ≤ 2 ^ 11 - 1 ∧
    (pcmScaleDown (IntBuffer.AsFloatBuffer
      { Format := { NumChannels := 1, SampleRate := 44100 }, Data := [2047],
        SourceBitDepth := 12 }) 12).1.Data = [2047 / 128] ∧
    ¬ ((2047 : ℚ) / 128 ≤ 1) := by
  refine ⟨by decide, by decide, by decide, ?_, by norm_num⟩
  norm_num [pcmScaleDown, IntBuffer.AsFloatBuffer, Int.tdiv]

/-- C8, amended: for every source bit depth `D` that is a positive multiple of
`8` and every buffer of integer PCM samples `s` with
`-2^(D-1) ≤ s ≤ 2^(D-1) - 1`, every value `pcmScaleDown` produces lies in
`[-1, 1]`. -/
theorem pcmScaleDown_range (b : IntBuffer) (hD : 0 < b.SourceBitDepth)
    (h8 : 8 ∣ b.SourceBitDepth)
    (hs : ∀ s ∈ b.Data, -(2 : Int) ^ (b.SourceBitDepth - 1).toNat ≤ s ∧
      s ≤ (2 : Int) ^ (b.SourceBitDepth - 1).toNat - 1) :
    ∀ y ∈ (pcmScaleDown b.AsFloatBuffer b.SourceBitDepth).1.Data, -1 ≤ y ∧ y ≤ 1 := by
  intro y hy
  simp only [pcmScaleDown, IntBuffer.AsFloatBuffer, List.mem_map] at hy
  obtain ⟨x, ⟨s, hsmem, rfl⟩, rfl⟩ := hy
  rw [pcmScaleDown_factor _ hD h8]
  obtain ⟨hlo, hhi⟩ := hs s hsmem
  have hpos : (0 : ℚ) < (2 : ℚ) ^ (b.SourceBitDepth - 1).toNat := by positivity
  have hlo' : -((2 : ℚ) ^ (b.SourceBitDepth - 1).toNat) ≤ (s : ℚ) := by
    have hcast : ((-(2 : Int) ^ (b.SourceBitDepth - 1).toNat : Int) : ℚ) ≤ (s : ℚ) :=
      Int.cast_le.mpr hlo
    push_cast at hcast
    exact hcast
  have hhi' : (s : ℚ) ≤ (2 : ℚ) ^ (b.SourceBitDepth - 1).toNat - 1 := by
    have hcast : (s : ℚ) ≤ (((2 : Int) ^ (b.SourceBitDepth - 1).toNat - 1 : Int) : ℚ) :=
      Int.cast_le.mpr hhi
    push_cast at hcast
    exact hcast
  constructor
  · rw [le_div_iff₀ hpos]; linarith
  · rw [div_le_iff₀ hpos]; linarith

/-- Witness of C8, amended: three 16-bit samples, the extremes included. -/
theorem pcmScaleDown_range_witness :
    ((0 : Int) < 16 ∧ (8 : Int) ∣ 16) ∧
    ∀ y ∈ (pcmScaleDown (IntBuffer.AsFloatBuffer
      { Format := { NumChannels := 1, SampleRate := 44100 }, Data := [-32768, 0, 32767],
        SourceBitDepth := 16 }) 16).1.Data, -1 ≤ y ∧ y ≤ 1 :=
  ⟨⟨by decide, by decide⟩,
    pcmScaleDown_range
      { Format := { NumChannels := 1, SampleRate := 44100 }, Data := [-32768, 0, 32767],
        SourceBitDepth := 16 }
      (by decide) (by decide) (by decide)⟩

/-! ## Peak normalization and headroom -/

theorem peak_fold_ge_init (data : List ℚ) :
    ∀ m : ℚ, m ≤ data.foldl (fun m x => if |x| > m then |x| else m) m := by
  induction data with
  | nil => intro m; simp
  | cons x xs ih =>
    intro m
    simp only [List.foldl_cons]
    refine le_trans ?_ (ih _)
    split
    · next h => exact le_of_lt h
    · exact le_refl m

theorem peak_fold_ge_mem (data : List ℚ) :
    ∀ m : ℚ, ∀ x ∈ data, |x| ≤ data.foldl (fun m x => if |x| > m then |x| else m) m := by
  induction data with
  | nil => intro m x hx; simp at hx
  | cons a xs ih =>
    intro m x hx
    simp only [List.foldl_cons]
    rcases List.mem_cons.mp hx with rfl | hmem
    · refine le_trans ?_ (peak_fold_ge_init xs _)
      split
      · exact le_refl _
      · next h => exact not_lt.mp h
    · exact ih _ x hmem

theorem peak_fold_attained (data : List ℚ) :
    ∀ m : ℚ, data.foldl (fun m x => if |x| > m then |x| else m) m = m ∨
      ∃ x ∈ data, |x| = data.foldl (fun m x => if |x| > m then |x| else m) m := by
  induction data with
  | nil => intro m; simp
  | cons a xs ih =>
    intro m
    simp only [List.foldl_cons]
    rcases ih (if |a| > m then |a| else m) with h | ⟨x, hx, hxe⟩
    · by_cases ha : |a| > m
      · right
        refine ⟨a, List.mem_cons_self _ _, ?_⟩
        rw [h]; simp [ha]
      · left
        rw [h]; simp [ha]
    · right
      exact ⟨x, List.mem_cons_of_mem _ hx, hxe⟩

theorem peak_nonneg (data : List ℚ) : 0 ≤ peak data :=
  peak_fold_ge_init data 0

theorem abs_le_peak (data : List ℚ) (x : ℚ) (hx : x ∈ data) : |x| ≤ peak data :=
  peak_fold_ge_mem data 0 x hx

theorem peak_pos_of_nonzero (data : List ℚ) (h : ∃ x ∈ data, x ≠ 0) : 0 < peak data := by
  obtain ⟨x, hx, hne⟩ := h
  exact lt_of_lt_of_le (abs_pos.mpr hne) (abs_le_peak data x hx)

theorem peak_zero_of_silent (data : List ℚ) (h : ∀ x ∈ data, x = 0) : peak data = 0 := by
  rcases peak_fold_attained data 0 with h0 | ⟨x, hx, hxe⟩
  · exact h0
  · have : peak data = |x| := hxe.symm
    rw [this, h x hx]; simp

/-- C3: `prepareOutput`'s peak normalization and `0.99` headroom, before the
PCM scaling. The step never divides by zero; for a buffer with a non-zero
sample the largest absolute value afterwards is exactly `0.99`; an all-zero
buffer stays all zero; and `[0.5, 0.25, 0.125, 0, 0, 0]` becomes
`[0.99, 0.495, 0.2475, 0, 0, 0]`. -/
theorem prepareOutputHeadroom_peak (data : List ℚ) :
    (∃ out, prepareOutputHeadroom data = some out ∧ out.length = data.length) ∧
    ((∃ x ∈ data, x ≠ 0) →
      ∃ out, prepareOutputHeadroom data = some out ∧
        (∀ y ∈ out, |y| ≤ 99 / 100) ∧ ∃ y ∈ out, |y| = 99 / 100) ∧
    ((∀ x ∈ data, x = 0) →
      ∃ out, prepareOutputHeadroom data = some out ∧ ∀ y ∈ out, y = 0) ∧
    prepareOutputHeadroom [1 / 2, 1 / 4, 1 / 8, 0, 0, 0]
      = some [99 / 100, 99 / 200, 99 / 400, 0, 0, 0] := by
  have hform : ∀ d : List ℚ, 0 < peak d →
      prepareOutputHeadroom d = some ((d.map (fun x => x * (1 / peak d))).map
        (fun x => x * (99 / 100))) := by
    intro d hp
    have hne : peak d ≠ 0 := ne_of_gt hp
    simp only [prepareOutputHeadroom, NormalizeMax, checkedDiv, gt_iff_lt, hp, if_true, hne,
      if_false]
  have hsilent : ∀ d : List ℚ, ¬ 0 < peak d →
      prepareOutputHeadroom d = some (d.map (fun x => x * (99 / 100))) := by
    intro d hp
    simp only [prepareOutputHeadroom, NormalizeMax, gt_iff_lt, hp, if_false]
  refine ⟨?_, ?_, ?_, ?_⟩
  · by_cases hp : 0 < peak data
    · exact ⟨_, hform data hp, by simp⟩
    · exact ⟨_, hsilent data hp, by simp⟩
  · intro hnz
    have hp := peak_pos_of_nonzero data hnz
    refine ⟨_, hform data hp, ?_, ?_⟩
    · intro y hy
      simp only [List.map_map, List.mem_map, Function.comp] at hy
      obtain ⟨x, hx, rfl⟩ := hy
      have hxle := abs_le_peak data x hx
      rw [abs_mul, abs_mul, abs_of_pos (by positivity : (0 : ℚ) < 1 / peak data),
        abs_of_pos (by norm_num : (0 : ℚ) < 99 / 100)]
      have h1 : |x| * (1 / peak data) ≤ 1 := by
        rw [mul_one_div, div_le_one hp]; exact hxle
      nlinarith
    · rcases peak_fold_attained data 0 with h0 | ⟨x, hx, hxe⟩
      · exfalso
        have : peak data = 0 := h0
        linarith
      · refine ⟨x * (1 / peak data) * (99 / 100), ?_, ?_⟩
        · simp only [List.map_map, List.mem_map, Function.comp]
          exact ⟨x, hx, rfl⟩
        · have hxe' : |x| = peak data := hxe
          rw [abs_mul, abs_mul, abs_of_pos (by positivity : (0 : ℚ) < 1 / peak data),
            abs_of_pos (by norm_num : (0 : ℚ) < 99 / 100), hxe']
          field_simp
  · intro hz
    have hp : ¬ 0 < peak data := by rw [peak_zero_of_silent data hz]; exact lt_irrefl 0
    refine ⟨_, hsilent data hp, ?_⟩
    intro y hy
    simp only [List.mem_map] at hy
    obtain ⟨x, hx, rfl⟩ := hy
    rw [hz x hx]; simp
  · norm_num [prepareOutputHeadroom, NormalizeMax, peak, checkedDiv, abs_of_nonneg]

/-- Witness of C3: the buffer `[0.5, 0.25, 0.125, 0, 0, 0]` has a non-zero
sample. -/
theorem prepareOutputHeadroom_peak_witness :
    (∃ x ∈ ([1 / 2, 1 / 4, 1 / 8, 0, 0, 0] : List ℚ), x ≠ 0) ∧
    ∃ out, prepareOutputHeadroom [1 / 2, 1 / 4, 1 / 8, 0, 0, 0] = some out ∧
      (∀ y ∈ out, |y| ≤ 99 / 100) ∧ ∃ y ∈ out, |y| = 99 / 100 :=
  ⟨⟨1 / 2, by simp, by norm_num⟩,
    (prepareOutputHeadroom_peak [1 / 2, 1 / 4, 1 / 8, 0, 0, 0]).2.1
      ⟨1 / 2, by simp, by norm_num⟩⟩

/-! ## The block loop -/

theorem offsetsFrom_succ (start step : Int) (n : Nat) :
    offsetsFrom start step (n + 1) = start :: offsetsFrom (start + step) step n := by
  unfold offsetsFrom
  rw [List.range_succ_eq_map]
  simp only [List.map_cons, List.map_map, Nat.cast_zero, zero_mul, add_zero]
  congr 1
  apply List.map_congr_left
  intro k _
  simp only [Function.comp, Nat.cast_succ]
  ring

theorem mem_offsetsFrom (start step : Int) (n : Nat) (i : Int) :
    i ∈ offsetsFrom start step n ↔ ∃ k : Nat, k < n ∧ i = start + (k : Int) * step := by
  unfold offsetsFrom
  rw [List.mem_map]
  constructor
  · rintro ⟨k, hk, rfl⟩
    exact ⟨k, List.mem_range.mp hk, rfl⟩
  · rintro ⟨k, hk, rfl⟩
    exact ⟨k, List.mem_range.mpr hk, rfl⟩

/-- A loop that has `m` offsets left below its bound runs its body at exactly
those offsets and then stops. -/
theorem blockLoop_visits {σ : Type} (body : Int → σ → Except Failure σ) (step bound : Int) :
    ∀ (m fuel : Nat) (i : Int) (s : σ), m < fuel →
      (∀ k : Nat, k < m → i + (k : Int) * step < bound) →
      bound ≤ i + (m : Int) * step →
      blockLoop body step bound fuel i s =
        some (visitOffsets body (offsetsFrom i step m) s) := by
  intro m
  induction m with
  | zero =>
    intro fuel i s hfuel _ hstop
    obtain ⟨f, rfl⟩ : ∃ f, fuel = f + 1 := ⟨fuel - 1, by omega⟩
    have hi : ¬ i < bound := by simp at hstop; omega
    simp [blockLoop, hi, visitOffsets, offsetsFrom]
  | succ m ih =>
    intro fuel i s hfuel hbelow hstop
    obtain ⟨f, rfl⟩ : ∃ f, fuel = f + 1 := ⟨fuel - 1, by omega⟩
    have hi : i < bound := by simpa using hbelow 0 (by omega)
    rw [offsetsFrom_succ]
    simp only [blockLoop, hi, if_true, visitOffsets]
    cases hb : body i s with
    | error e => rfl
    | ok s' =>
      simp only
      apply ih f (i + step) s' (by omega)
      · intro k hk
        have := hbelow (k + 1) (by omega)
        push_cast at this
        linarith
      · push_cast at hstop
        linarith

/-- The number `⌈L / step⌉` of rounds: the multiples of `step` before it are
below `L`, and it is the first one that is not. -/
theorem ceil_offsets (step : Int) (L : Nat) (hstep : 1 ≤ step) :
    (∀ k : Nat, k < ⌈(L : ℚ) / (step : ℚ)⌉₊ → (k : Int) * step < (L : Int)) ∧
    (L : Int) ≤ (⌈(L : ℚ) / (step : ℚ)⌉₊ : Int) * step := by
  have hSq : (0 : ℚ) < (step : ℚ) := by exact_mod_cast (by omega : (0 : Int) < step)
  constructor
  · intro k hk
    have h1 : (k : ℚ) < (L : ℚ) / (step : ℚ) := Nat.lt_ceil.mp hk
    rw [lt_div_iff₀ hSq] at h1
    exact_mod_cast h1
  · have h1 : (L : ℚ) / (step : ℚ) ≤ (⌈(L : ℚ) / (step : ℚ)⌉₊ : ℚ) := Nat.le_ceil _
    rw [div_le_iff₀ hSq] at h1
    exact_mod_cast h1

/-- A loop from `0` with a positive step and bound `L`, given more fuel than
`⌈L / step⌉`, is its body run at the first `⌈L / step⌉` multiples of the step. -/
theorem blockLoop_ceil {σ : Type} (body : Int → σ → Except Failure σ) (step : Int) (L : Nat)
    (hstep : 1 ≤ step) (s : σ) (fuel : Nat) (hfuel : ⌈(L : ℚ) / (step : ℚ)⌉₊ < fuel) :
    blockLoop body step (L : Int) fuel 0 s =
      some (visitOffsets body (offsetsFrom 0 step ⌈(L : ℚ) / (step : ℚ)⌉₊) s) := by
  obtain ⟨hbelow, habove⟩ := ceil_offsets step L hstep
  exact blockLoop_visits body step (L : Int) ⌈(L : ℚ) / (step : ℚ)⌉₊ fuel 0 s hfuel
    (by intro k hk; simpa using hbelow k hk) (by simpa using habove)

/-- When `splitChannels` returns, it returns at least one channel. -/
theorem splitChannels_ok_length (b : FloatBuffer) (chans : List (List ℚ))
    (h : splitChannels b = .ok chans) : 1 ≤ chans.length := by
  unfold splitChannels at h
  simp only at h
  split at h
  · cases h
  · split at h
    · cases h
    · next h0 h1 =>
      rw [forRange_length _ _ _ _ h]
      omega

/-- With at least one impulse-response channel, the channel mapper answers for
every channel index of the loop that builds the convolvers. -/
theorem irChannel_isOk (irChannels : List (List ℚ)) (hC : 1 ≤ irChannels.length) (i : Nat) :
    ∃ ch, irChannel irChannels (i : Int) = .ok ch := by
  by_cases hk : (i : Int) > (irChannels.length : Int) - 1
  · have hlt : irChannels.length - 1 < irChannels.length := by omega
    have hcast : ((irChannels.length : Int) - 1) = ((irChannels.length - 1 : Nat) : Int) := by
      omega
    refine ⟨irChannels.get ⟨irChannels.length - 1, hlt⟩, ?_⟩
    simp only [irChannel, hk, if_true]
    rw [hcast]
    exact index_ok irChannels _ hlt
  · have hlt : i < irChannels.length := by omega
    refine ⟨irChannels.get ⟨i, hlt⟩, ?_⟩
    simp only [irChannel, hk, if_false]
    exact index_ok irChannels _ hlt

/-- For a block size `B ≥ 1` and at least one impulse-response channel the
loop that builds the convolvers succeeds, with one convolver per round. -/
theorem newConvolvers_ok (B : Int) (hB : 1 ≤ B) (irChannels : List (List ℚ))
    (hC : 1 ≤ irChannels.length) (numChannels : Nat) :
    ∀ (n i : Nat), ∃ cvs, newConvolvers B irChannels numChannels i n = .ok cvs ∧
      cvs.length = n := by
  intro n
  induction n with
  | zero => intro i; exact ⟨[], rfl, rfl⟩
  | succ n ih =>
    intro i
    obtain ⟨ch, hch⟩ := irChannel_isOk irChannels hC i
    obtain ⟨cvs, hcvs, hlen⟩ := ih (i + 1)
    have hB0 : ¬ (B ≤ 0) := by omega
    refine ⟨{ blockSize := B, ir := ch, channel := i, numChannels := numChannels } :: cvs, ?_,
      by simp [hlen]⟩
    simp only [newConvolvers, hch, NewConvolver, hB0, if_false, hcvs]

/-- Accumulation writes in place: it keeps the window's length, and its only
failure is a write outside the window. -/
theorem accumulate_result :
    ∀ (ws : List (Nat × ℚ)) (out : List ℚ),
      (∃ out', accumulate out ws = .ok out' ∧ out'.length = out.length) ∨
      accumulate out ws = .error .indexOutOfRange := by
  intro ws
  induction ws with
  | nil => intro out; exact Or.inl ⟨out, rfl, rfl⟩
  | cons w ws ih =>
    intro out
    cases hw : out[w.1]? with
    | none => right; simp [accumulate, addAt, hw]
    | some o =>
      rcases ih (out.set w.1 (o + w.2)) with ⟨out', h1, h2⟩ | h1
      · left
        exact ⟨out', by simp [accumulate, addAt, hw, h1], by simpa using h2⟩
      · right
        simp [accumulate, addAt, hw, h1]

theorem min_bounds (i L : Int) (hi : 0 ≤ i) (hL : 0 ≤ L) :
    0 ≤ min i L ∧ min i L ≤ L ∧ (L ≤ i → min i L = L) := by
  unfold min
  split <;> omega

/-- At an offset inside the output buffer one round of the inner loop of `run`
hands its first convolver the windows `out[i:]` and `in[min(i, len(in)):]`:
neither re-slicing fails. -/
theorem convolveAll_windows (inp out : List ℚ) (B i : Int) (hi : 0 ≤ i)
    (hle : i ≤ (out.length : Int)) (conv : Convolver) (rest : List Convolver) :
    (∀ p, conv.Convolve (out.drop i.toNat) (inp.drop (min i (inp.length : Int)).toNat) B
        = .error p →
      convolveAll inp B i (conv :: rest) out = .error (.panic p)) ∧
    (∀ w, conv.Convolve (out.drop i.toNat) (inp.drop (min i (inp.length : Int)).toNat) B
        = .ok w →
      convolveAll inp B i (conv :: rest) out
        = convolveAll inp B i rest (out.take i.toNat ++ w)) := by
  obtain ⟨h1, h2, _⟩ := min_bounds i (inp.length : Int) hi (by omega)
  have hs1 : sliceFrom out i = .ok (out.drop i.toNat) := by simp [sliceFrom, hi, hle]
  have hs2 : sliceFrom inp (min i (inp.length : Int))
      = .ok (inp.drop (min i (inp.length : Int)).toNat) := by simp [sliceFrom, h1, h2]
  constructor
  · intro p hp
    simp only [convolveAll, hs1, hs2, hp]
  · intro w hw
    simp only [convolveAll, hs1, hs2, hw]

/-- One round of the inner loop of `run` at an offset inside the output buffer
keeps the buffer's length; it can only fail by a write outside a window. -/
theorem convolveAll_result (inp : List ℚ) (B i : Int) (hi : 0 ≤ i) :
    ∀ (cvs : List Convolver) (out : List ℚ), i ≤ (out.length : Int) →
      (∃ out', convolveAll inp B i cvs out = .ok out' ∧ out'.length = out.length) ∨
      convolveAll inp B i cvs out = .error (.panic .indexOutOfRange) := by
  intro cvs
  induction cvs with
  | nil => intro out _; exact Or.inl ⟨out, rfl, rfl⟩
  | cons conv rest ih =>
    intro out hle
    obtain ⟨herr, hok⟩ := convolveAll_windows inp out B i hi hle conv rest
    rcases accumulate_result
        (conv.contributions (inp.drop (min i (inp.length : Int)).toNat) B.toNat)
        (out.drop i.toNat) with ⟨w, hw, hwlen⟩ | hw
    · have hlen : (out.take i.toNat ++ w).length = out.length := by
        rw [List.length_append, List.length_take, hwlen, List.length_drop]
        omega
      rw [hok w hw]
      rcases ih (out.take i.toNat ++ w) (by rw [hlen]; exact hle) with ⟨o2, h1, h2⟩ | h1
      · exact Or.inl ⟨o2, h1, by rw [h2, hlen]⟩
      · exact Or.inr h1
    · right
      exact herr _ hw

/-- The rounds of the block loop at offsets inside the output buffer keep the
buffer's length; they can only fail by a write outside a window. -/
theorem visitOffsets_result (inp : List ℚ) (B : Int) (cvs : List Convolver) (L : Nat) :
    ∀ (offs : List Int), (∀ i ∈ offs, 0 ≤ i ∧ i ≤ (L : Int)) →
      ∀ out : List ℚ, out.length = L →
        (∃ out', visitOffsets (fun i o => convolveAll inp B i cvs o) offs out = .ok out' ∧
          out'.length = L) ∨
        visitOffsets (fun i o => convolveAll inp B i cvs o) offs out
          = .error (.panic .indexOutOfRange) := by
  intro offs
  induction offs with
  | nil => intro _ out hlen; exact Or.inl ⟨out, rfl, hlen⟩
  | cons i rest ih =>
    intro hin out hlen
    obtain ⟨hi0, hiL⟩ := hin i (List.mem_cons_self _ _)
    rcases convolveAll_result inp B i hi0 cvs out (by rw [hlen]; exact hiL) with
      ⟨o1, h1, h1len⟩ | h1
    · simp only [visitOffsets, h1]
      exact ih (fun j hj => hin j (List.mem_cons_of_mem _ hj)) o1 (by rw [h1len, hlen])
    · right
      simp only [visitOffsets, h1]

/-- C10: for block size `B ≥ 1`, an input of `C ≥ 1` channels and `L_in`
samples and an output buffer of `L_out ≥ 1` samples, `run` reaches its block
loop and, with more fuel than `⌈L_out / (C*B)⌉`, is exactly its inner loop run
at the offsets `0, C*B, 2*C*B, ...` below `L_out`, in order, from the zeroed
buffer: `⌈L_out / (C*B)⌉` rounds, at all the multiples of `C*B` below `L_out`.
At each of these offsets the inner loop hands each convolver the windows
`out[i:]` and `in[min(i, L_in):]`, both in range, the input window being empty
once `i ≥ L_in`; in particular `run` never fails on a slice bound. -/
theorem run_blockLoop_offsets (input ir : FloatBuffer) (B : Int)
    (irChannels : List (List ℚ)) (hB : 1 ≤ B) (hC : 1 ≤ input.Format.NumChannels)
    (hsplit : splitChannels ir = .ok irChannels)
    (hout : 1 ≤ input.Data.length + ir.Data.length - 1) :
    ∃ convolvers : List Convolver,
      newConvolvers B irChannels input.Format.NumChannels.toNat 0
          input.Format.NumChannels.toNat = .ok convolvers ∧
      (∀ fuel : Nat,
        ⌈((input.Data.length + ir.Data.length - 1 : Nat) : ℚ)
            / ((input.Format.NumChannels * B : Int) : ℚ)⌉₊ < fuel →
        run input ir B fuel = some (visitOffsets
          (fun i o => convolveAll input.Data B i convolvers o)
          (offsetsFrom 0 (input.Format.NumChannels * B)
            ⌈((input.Data.length + ir.Data.length - 1 : Nat) : ℚ)
              / ((input.Format.NumChannels * B : Int) : ℚ)⌉₊)
          (List.replicate (input.Data.length + ir.Data.length - 1) 0))) ∧
      visitOffsets (fun i o => convolveAll input.Data B i convolvers o)
          (offsetsFrom 0 (input.Format.NumChannels * B)
            ⌈((input.Data.length + ir.Data.length - 1 : Nat) : ℚ)
              / ((input.Format.NumChannels * B : Int) : ℚ)⌉₊)
          (List.replicate (input.Data.length + ir.Data.length - 1) 0)
        ≠ .error (.panic .sliceBounds) ∧
      (offsetsFrom 0 (input.Format.NumChannels * B)
          ⌈((input.Data.length + ir.Data.length - 1 : Nat) : ℚ)
            / ((input.Format.NumChannels * B : Int) : ℚ)⌉₊).length
        = ⌈((input.Data.length + ir.Data.length - 1 : Nat) : ℚ)
            / ((input.Format.NumChannels * B : Int) : ℚ)⌉₊ ∧
      (∀ k : Nat,
        (k : Int) * (input.Format.NumChannels * B)
          < ((input.Data.length + ir.Data.length - 1 : Nat) : Int) →
        (k : Int) * (input.Format.NumChannels * B) ∈
          offsetsFrom 0 (input.Format.NumChannels * B)
            ⌈((input.Data.length + ir.Data.length - 1 : Nat) : ℚ)
              / ((input.Format.NumChannels * B : Int) : ℚ)⌉₊) ∧
      (∀ i ∈ offsetsFrom 0 (input.Format.NumChannels * B)
          ⌈((input.Data.length + ir.Data.length - 1 : Nat) : ℚ)
            / ((input.Format.NumChannels * B : Int) : ℚ)⌉₊,
        0 ≤ i ∧ i < ((input.Data.length + ir.Data.length - 1 : Nat) : Int) ∧
        ((input.Data.length : Int) ≤ i →
          input.Data.drop (min i (input.Data.length : Int)).toNat = []) ∧
        ∀ out : List ℚ, out.length = input.Data.length + ir.Data.length - 1 →
          sliceFrom out i = .ok (out.drop i.toNat) ∧
          sliceFrom input.Data (min i (input.Data.length : Int))
            = .ok (input.Data.drop (min i (input.Data.length : Int)).toNat) ∧
          ∀ (conv : Convolver) (rest : List Convolver),
            (∀ p, conv.Convolve (out.drop i.toNat)
                (input.Data.drop (min i (input.Data.length : Int)).toNat) B = .error p →
              convolveAll input.Data B i (conv :: rest) out = .error (.panic p)) ∧
            (∀ w, conv.Convolve (out.drop i.toNat)
                (input.Data.drop (min i (input.Data.length : Int)).toNat) B = .ok w →
              convolveAll input.Data B i (conv :: rest) out
                = convolveAll input.Data B i rest (out.take i.toNat ++ w))) := by
  have hS : (1 : Int) ≤ input.Format.NumChannels * B := by nlinarith
  have hSq : (0 : ℚ) < ((input.Format.NumChannels * B : Int) : ℚ) := by
    exact_mod_cast (by omega : (0 : Int) < input.Format.NumChannels * B)
  obtain ⟨hbelow, _⟩ := ceil_offsets (input.Format.NumChannels * B)
    (input.Data.length + ir.Data.length - 1) hS
  have hchans := splitChannels_ok_length ir irChannels hsplit
  obtain ⟨convolvers, hconv, _⟩ := newConvolvers_ok B hB irChannels hchans
    input.Format.NumChannels.toNat input.Format.NumChannels.toNat 0
  have halloc := allocOut_length input ir (by omega)
  have hrange : ∀ i ∈ offsetsFrom 0 (input.Format.NumChannels * B)
      ⌈((input.Data.length + ir.Data.length - 1 : Nat) : ℚ)
        / ((input.Format.NumChannels * B : Int) : ℚ)⌉₊,
      0 ≤ i ∧ i < ((input.Data.length + ir.Data.length - 1 : Nat) : Int) := by
    intro i hi
    obtain ⟨k, hk, rfl⟩ := (mem_offsetsFrom _ _ _ _).mp hi
    simp only [zero_add]
    exact ⟨mul_nonneg (Int.ofNat_nonneg k) (by omega), hbelow k hk⟩
  refine ⟨convolvers, hconv, ?_, ?_, by simp [offsetsFrom], ?_, ?_⟩
  · intro fuel hfuel
    have hneg : ¬ (input.Format.NumChannels < 0) := by omega
    simp only [run, hsplit, hneg, if_false, hconv, halloc, List.length_replicate]
    exact blockLoop_ceil _ (input.Format.NumChannels * B)
      (input.Data.length + ir.Data.length - 1) hS _ fuel hfuel
  · intro hbad
    rcases visitOffsets_result input.Data B convolvers
        (input.Data.length + ir.Data.length - 1) _
        (fun i hi => ⟨(hrange i hi).1, le_of_lt (hrange i hi).2⟩)
        (List.replicate (input.Data.length + ir.Data.length - 1) 0) (by simp) with
      ⟨o, h1, _⟩ | h1
    · rw [h1] at hbad; cases hbad
    · rw [h1] at hbad; cases hbad
  · intro k hk
    rw [mem_offsetsFrom]
    refine ⟨k, ?_, by ring⟩
    rw [Nat.lt_ceil, lt_div_iff₀ hSq]
    exact_mod_cast hk
  · intro i hi
    obtain ⟨hi0, hiL⟩ := hrange i hi
    obtain ⟨h1, h2, h3⟩ := min_bounds i (input.Data.length : Int) hi0 (by omega)
    refine ⟨hi0, hiL, ?_, ?_⟩
    · intro hge
      rw [h3 hge]; simp
    · intro out hlen
      have hle : i ≤ (out.length : Int) := by rw [hlen]; exact le_of_lt hiL
      refine ⟨by simp [sliceFrom, hi0, hle], by simp [sliceFrom, h1, h2], ?_⟩
      intro conv rest
      exact convolveAll_windows input.Data out B i hi0 hle conv rest

/-- Witness of C10: the mono input `[1, 0, 0, 0]`, the mono impulse response
`[0.5, 0.25, 0.125]` and block size `4`. -/
theorem run_blockLoop_offsets_witness :
    ((1 : Int) ≤ 4 ∧ (1 : Int) ≤ 1 ∧
      splitChannels
          { Format := { NumChannels := 1, SampleRate := 44100 }, Data := [1 / 2, 1 / 4, 1 / 8] }
        = .ok [[1 / 2, 1 / 4, 1 / 8]] ∧
      1 ≤ ([1, 0, 0, 0] : List ℚ).length + ([1 / 2, 1 / 4, 1 / 8] : List ℚ).length - 1) ∧
    ∃ convolvers : List Convolver,
      newConvolvers 4 [[1 / 2, 1 / 4, 1 / 8]] (1 : Int).toNat 0 (1 : Int).toNat
        = .ok convolvers ∧
      ∀ fuel : Nat,
        ⌈((([1, 0, 0, 0] : List ℚ).length + ([1 / 2, 1 / 4, 1 / 8] : List ℚ).length - 1 : Nat) : ℚ)
            / (((1 : Int) * 4 : Int) : ℚ)⌉₊ < fuel →
        run { Format := { NumChannels := 1, SampleRate := 44100 }, Data := [1, 0, 0, 0] }
            { Format := { NumChannels := 1, SampleRate := 44100 }, Data := [1 / 2, 1 / 4, 1 / 8] }
            4 fuel
          = some (visitOffsets
            (fun i o => convolveAll [1, 0, 0, 0] 4 i convolvers o)
            (offsetsFrom 0 ((1 : Int) * 4)
              ⌈((([1, 0, 0, 0] : List ℚ).length + ([1 / 2, 1 / 4, 1 / 8] : List ℚ).length - 1
                  : Nat) : ℚ) / (((1 : Int) * 4 : Int) : ℚ)⌉₊)
            (List.replicate
              (([1, 0, 0, 0] : List ℚ).length + ([1 / 2, 1 / 4, 1 / 8] : List ℚ).length - 1) 0)) :=
  ⟨⟨by decide, by decide, splitChannels_mono 44100 [1 / 2, 1 / 4, 1 / 8], by decide⟩,
    (run_blockLoop_offsets
      { Format := { NumChannels := 1, SampleRate := 44100 }, Data := [1, 0, 0, 0] }
      { Format := { NumChannels := 1, SampleRate := 44100 }, Data := [1 / 2, 1 / 4, 1 / 8] }
      4 [[1 / 2, 1 / 4, 1 / 8]] (by decide) (by decide)
      (splitChannels_mono 44100 [1 / 2, 1 / 4, 1 / 8]) (by decide)).imp
      (fun _ hrun => ⟨hrun.1, hrun.2.1⟩)⟩

/-! ## Overlap-add accumulation -/

theorem addAt_ok (out : List ℚ) (k : Nat) (v : ℚ) (hk : k < out.length) :
    addAt out k v = .ok (out.set k (out.getD k 0 + v)) := by
  simp [addAt, List.getElem?_eq_getElem hk]

theorem tally_nil (n : Nat) : tally [] n = 0 := by
  simp [tally]

theorem tally_cons (w : Nat × ℚ) (ws : List (Nat × ℚ)) (n : Nat) :
    tally (w :: ws) n = (if w.1 = n then w.2 else 0) + tally ws n := by
  simp [tally]

theorem tally_append (a b : List (Nat × ℚ)) (n : Nat) :
    tally (a ++ b) n = tally a n + tally b n := by
  simp [tally]

/-- Accumulating contributions that all land inside the window succeeds, keeps
the window's length, and adds at each position the contributions made there. -/
theorem accumulate_spec :
    ∀ (ws : List (Nat × ℚ)) (out : List ℚ), (∀ w ∈ ws, w.1 < out.length) →
      ∃ out', accumulate out ws = .ok out' ∧ out'.length = out.length ∧
        ∀ n, out'.getD n 0 = out.getD n 0 + tally ws n := by
  intro ws
  induction ws with
  | nil =>
    intro out _
    exact ⟨out, rfl, rfl, by intro n; simp [tally_nil]⟩
  | cons w ws ih =>
    intro out hin
    have hw : w.1 < out.length := hin w (List.mem_cons_self _ _)
    obtain ⟨out', hacc, hlen, hget⟩ := ih (out.set w.1 (out.getD w.1 0 + w.2))
      (by intro w' hw'; simpa using hin w' (List.mem_cons_of_mem _ hw'))
    refine ⟨out', ?_, ?_, ?_⟩
    · simp only [accumulate, addAt_ok out w.1 w.2 hw]
      exact hacc
    · simpa using hlen
    · intro n
      rw [hget n, tally_cons]
      by_cases hn : w.1 = n
      · subst hn
        simp [List.getElem?_set, hw, List.getElem?_eq_getElem hw]
        ring
      · simp [List.getElem?_set, hn]

theorem tally_flatMap {α : Type} (l : List α) (f : α → List (Nat × ℚ)) (n : Nat) :
    tally (l.flatMap f) n = (l.map fun a => tally (f a) n).sum := by
  induction l with
  | nil => simp [tally_nil]
  | cons a t ih => simp [List.flatMap_cons, tally_append, ih]

theorem sum_map_range (f : Nat → ℚ) (n : Nat) :
    ((List.range n).map f).sum = ∑ j in Finset.range n, f j := by
  induction n with
  | zero => simp
  | succ n ih => simp [List.range_succ, Finset.sum_range_succ, ih]

/-- One input sample `x` at position `j` of a mono block, spread over the
impulse response from tap `s` on, adds `x * h[n - j]` at position `n`. -/
theorem tally_row (x : ℚ) (j : Nat) :
    ∀ (h : List ℚ) (s n : Nat),
      tally ((h.enumFrom s).map fun kh => (j + kh.1, x * kh.2)) n
        = if j + s ≤ n then x * h.getD (n - j - s) 0 else 0 := by
  intro h
  induction h with
  | nil => intro s n; simp [tally_nil]
  | cons a t ih =>
    intro s n
    simp only [List.enumFrom_cons, List.map_cons, tally_cons, ih (s + 1) n]
    by_cases h1 : j + s = n
    · have h2 : ¬ (j + (s + 1) ≤ n) := by omega
      have h3 : n - j - s = 0 := by omega
      have h6 : j + s ≤ n := by omega
      simp [h1, h2, h3, h6]
    · by_cases h2 : j + s ≤ n
      · have h3 : j + (s + 1) ≤ n := by omega
        obtain ⟨d, hd⟩ : ∃ d, n - j - s = d + 1 := ⟨n - j - s - 1, by omega⟩
        have h4 : n - j - (s + 1) = d := by omega
        simp [h1, h2, h3, hd, h4]
      · have h3 : ¬ (j + (s + 1) ≤ n) := by omega
        simp [h1, h2, h3]

/-- A sample of a partition is the impulse-response sample at the same
absolute position. -/
theorem getD_partition (h : List ℚ) (s B d : Nat) :
    ((h.drop s).take B).getD d 0 = if d < B then h.getD (s + d) 0 else 0 := by
  simp only [List.getD_eq_getElem?_getD, List.getElem?_take, List.getElem?_drop]
  split <;> simp

/-- The partitions cover the impulse response: over all partitions, the one
sample at absolute position `m` is `h[m]`. -/
theorem sum_partitions (h : List ℚ) (B m : Nat) (hB : 1 ≤ B) :
    (∑ p in Finset.range ((h.length + B - 1) / B),
      if p * B ≤ m then ((h.drop (p * B)).take B).getD (m - p * B) 0 else 0)
      = h.getD m 0 := by
  have hterm : ∀ p : Nat,
      (if p * B ≤ m then ((h.drop (p * B)).take B).getD (m - p * B) 0 else 0)
        = if p = m / B then h.getD m 0 else 0 := by
    intro p
    rw [getD_partition]
    by_cases hp : p = m / B
    · subst hp
      have h1 : m / B * B ≤ m := Nat.div_mul_le_self m B
      have h2 : m - m / B * B < B := by
        have := Nat.mod_lt m (by omega : B > 0)
        have hdm := Nat.div_add_mod m B
        have hcomm : B * (m / B) = m / B * B := Nat.mul_comm _ _
        omega
      have h3 : m / B * B + (m - m / B * B) = m := by omega
      simp [h1, h2, h3]
    · rw [if_neg hp]
      by_cases h1 : p * B ≤ m
      · rw [if_pos h1]
        have h2 : ¬ (m - p * B < B) := by
          intro hlt
          apply hp
          have hle : p ≤ m / B := (Nat.le_div_iff_mul_le (by omega)).mpr h1
          have hlt2 : m / B < p + 1 := by
            rw [Nat.div_lt_iff_lt_mul (by omega)]
            have : (p + 1) * B = p * B + B := by ring
            omega
          omega
        rw [if_neg h2]
      · rw [if_neg h1]
  rw [Finset.sum_congr rfl (fun p _ => hterm p), Finset.sum_ite_eq']
  split
  · rfl
  · next hnot =>
    have hge : (h.length + B - 1) / B ≤ m / B := by
      simpa [Finset.mem_range] using hnot
    have hcover : h.length ≤ (h.length + B - 1) / B * B := by
      have := Nat.mod_lt (h.length + B - 1) (by omega : B > 0)
      have hdm := Nat.div_add_mod (h.length + B - 1) B
      have hcomm : B * ((h.length + B - 1) / B) = (h.length + B - 1) / B * B :=
        Nat.mul_comm _ _
      omega
    have hm : (h.length + B - 1) / B * B ≤ m :=
      le_trans (Nat.mul_le_mul_right B hge) (Nat.div_mul_le_self m B)
    simp [List.getElem?_eq_none (by omega : h.length ≤ m)]

/-- What one block of a mono convolver adds at position `n` of its output
window: the convolution of the block's samples with the whole impulse
response, whatever the partition size. -/
theorem tally_contributions_mono (bs : Nat) (hbs : 1 ≤ bs) (h w : List ℚ) (b n : Nat) :
    tally (Convolver.contributions
        { blockSize := (bs : Int), ir := h, channel := 0, numChannels := 1 } w b) n
      = ∑ j in Finset.range b, if j ≤ n then w.getD j 0 * h.getD (n - j) 0 else 0 := by
  have hinner : ∀ (s : Nat) (c : List ℚ),
      tally ((List.range b).flatMap fun j =>
        match w[j * 1 + 0]? with
        | none => []
        | some x => (c.enumFrom s).map fun kh => ((j + kh.1) * 1 + 0, x * kh.2)) n
      = ∑ j in Finset.range b,
          if j + s ≤ n then w.getD j 0 * c.getD (n - j - s) 0 else 0 := by
    intro s c
    rw [tally_flatMap, sum_map_range]
    apply Finset.sum_congr rfl
    intro j _
    simp only [Nat.mul_one, Nat.add_zero]
    cases hw : w[j]? with
    | none => simp [tally_nil, hw]
    | some x =>
      simp only []
      rw [tally_row x j c s n]
      simp [hw]
  unfold Convolver.contributions Convolver.partitions
  simp only [Int.toNat_ofNat]
  rw [tally_flatMap, List.map_map, sum_map_range]
  simp only [Function.comp, hinner]
  rw [Finset.sum_comm]
  apply Finset.sum_congr rfl
  intro j _
  by_cases hj : j ≤ n
  · rw [if_pos hj, ← sum_partitions h bs (n - j) hbs, Finset.mul_sum]
    apply Finset.sum_congr rfl
    intro p _
    by_cases hp : p * bs ≤ n - j
    · have h1 : j + p * bs ≤ n := by omega
      simp [hp, h1]
    · have h1 : ¬ (j + p * bs ≤ n) := by omega
      simp [hp, h1]
  · rw [if_neg hj]
    apply Finset.sum_eq_zero
    intro p _
    have h1 : ¬ (j + p * bs ≤ n) := by omega
    simp [h1]

/-- Every contribution of a mono block lands at `j + k` for an input sample
`j` of the window and a tap `k` of the impulse response. -/
theorem contributions_mono_pos (B : Int) (h w : List ℚ) (b : Nat) :
    ∀ c ∈ Convolver.contributions
        { blockSize := B, ir := h, channel := 0, numChannels := 1 } w b,
      ∃ j k, j < w.length ∧ k < h.length ∧ c.1 = j + k := by
  intro c hc
  unfold Convolver.contributions Convolver.partitions at hc
  rw [List.mem_flatMap] at hc
  obtain ⟨part, hpart, hc⟩ := hc
  rw [List.mem_map] at hpart
  obtain ⟨p, _, rfl⟩ := hpart
  rw [List.mem_flatMap] at hc
  obtain ⟨j, _, hj⟩ := hc
  simp only [Nat.mul_one, Nat.add_zero] at hj
  cases hw : w[j]? with
  | none => simp [hw] at hj
  | some x =>
    simp only [hw, List.mem_map] at hj
    obtain ⟨kh, hkh, rfl⟩ := hj
    have hjlt : j < w.length := by
      by_contra hge
      rw [List.getElem?_eq_none (by omega)] at hw
      cases hw
    have hmem : (kh.1, kh.2) ∈ List.enumFrom (p * B.toNat)
        ((h.drop (p * B.toNat)).take B.toNat) := hkh
    obtain ⟨hlo, hhi, _⟩ := List.mem_enumFrom hmem
    have hklt : kh.1 < h.length := by
      rw [List.length_take, List.length_drop] at hhi
      omega
    exact ⟨j, kh.1, hjlt, hklt, rfl⟩

theorem min_natCast (p N : Nat) : min (p : Int) (N : Int) = ((Min.min p N : Nat) : Int) := by
  unfold min
  split
  · next h => rw [Nat.min_eq_left (by omega)]
  · next h => rw [Nat.min_eq_right (by omega)]

theorem getD_drop_min (x : List ℚ) (p j : Nat) :
    (x.drop (Min.min p x.length)).getD j 0 = x.getD (p + j) 0 := by
  simp only [List.getD_eq_getElem?_getD, List.getElem?_drop]
  rcases Nat.le_total p x.length with hle | hge
  · rw [Nat.min_eq_left hle]
  · rw [Nat.min_eq_right hge, List.getElem?_eq_none (by omega),
      List.getElem?_eq_none (by omega)]

/-- The samples up to `p + b` account for what the samples up to `p` do plus
what the block of `b` samples at `p` adds. -/
theorem convolutionUpTo_step (x h : List ℚ) (p b n : Nat) :
    convolutionUpTo x h (p + b) n = convolutionUpTo x h p n +
      (if p ≤ n then
        ∑ j in Finset.range b,
          if j ≤ n - p then (x.drop (Min.min p x.length)).getD j 0 * h.getD (n - p - j) 0 else 0
      else 0) := by
  unfold convolutionUpTo
  rw [Finset.sum_range_add]
  congr 1
  by_cases hp : p ≤ n
  · rw [if_pos hp]
    apply Finset.sum_congr rfl
    intro j _
    rw [getD_drop_min]
    by_cases hj : j ≤ n - p
    · have h1 : p + j ≤ n := by omega
      have h2 : n - (p + j) = n - p - j := by omega
      simp [hj, h1, h2]
    · have h1 : ¬ (p + j ≤ n) := by omega
      simp [hj, h1]
  · rw [if_neg hp]
    apply Finset.sum_eq_zero
    intro j _
    have h1 : ¬ (p + j ≤ n) := by omega
    simp [h1]

/-- Once all the samples that can reach position `n` are in, the partial sum
is the full linear convolution. -/
theorem convolutionUpTo_full (x h : List ℚ) (t n : Nat) (ht : n < t) :
    convolutionUpTo x h t n = linearConvolution x h n := by
  unfold convolutionUpTo linearConvolution
  rw [← Finset.sum_filter]
  have hset : (Finset.range t).filter (fun j => j ≤ n) = Finset.range (n + 1) := by
    ext j
    simp only [Finset.mem_filter, Finset.mem_range]
    omega
  rw [hset]

/-- One round of the block loop for a mono input and a mono impulse response,
at an offset `p` inside the output buffer: the round succeeds, keeps the
buffer's length, and adds the block's convolution at the window's positions. -/
theorem convolveAll_mono (x h out : List ℚ) (b p : Nat) (hb : 1 ≤ b)
    (hlen : out.length = x.length + h.length - 1) (hp : p < out.length) :
    ∃ out', convolveAll x (b : Int) (p : Int)
        [{ blockSize := (b : Int), ir := h, channel := 0, numChannels := 1 }] out = .ok out' ∧
      out'.length = out.length ∧
      ∀ n, out'.getD n 0 = out.getD n 0 +
        (if p ≤ n then
          ∑ j in Finset.range b,
            if j ≤ n - p then (x.drop (Min.min p x.length)).getD j 0 * h.getD (n - p - j) 0
            else 0
        else 0) := by
  have hslice : sliceFrom out (p : Int) = .ok (out.drop p) := by
    have : (p : Int) ≤ (out.length : Int) := by omega
    simp [sliceFrom, this]
  have hin : sliceFrom x (min (p : Int) (x.length : Int)) = .ok (x.drop (Min.min p x.length)) := by
    rw [min_natCast]
    have : ((Min.min p x.length : Nat) : Int) ≤ (x.length : Int) := by
      omega
    simp only [sliceFrom, this, Int.toNat_ofNat, Int.ofNat_nonneg, and_self, if_true]
  have hrange : ∀ c ∈ Convolver.contributions
      { blockSize := (b : Int), ir := h, channel := 0, numChannels := 1 }
      (x.drop (Min.min p x.length)) b, c.1 < (out.drop p).length := by
    intro c hc
    obtain ⟨j, k, hj, hk, hck⟩ := contributions_mono_pos _ _ _ _ c hc
    rw [List.length_drop] at hj ⊢
    omega
  obtain ⟨ow, hacc, howlen, hget⟩ := accumulate_spec _ (out.drop p) hrange
  refine ⟨out.take p ++ ow, ?_, ?_, ?_⟩
  · simp only [convolveAll, hslice, hin, Convolver.Convolve, Int.toNat_ofNat, hacc]
  · rw [List.length_append, List.length_take, howlen, List.length_drop]
    omega
  · intro n
    have htake : (out.take p).length = p := by rw [List.length_take]; omega
    by_cases hn : p ≤ n
    · rw [if_pos hn, List.getD_append_right _ _ _ _ (by omega), htake, hget (n - p),
        tally_contributions_mono b hb]
      congr 1
      simp only [List.getD_eq_getElem?_getD, List.getElem?_drop]
      congr 2
      omega
    · rw [if_neg hn, List.getD_append _ _ _ _ (by omega)]
      simp only [List.getD_eq_getElem?_getD, add_zero]
      rw [List.getElem?_take_of_lt (by omega)]

/-- The mono block loop keeps its invariant: after the rounds at offsets
`p, p + b, ...` the buffer holds the convolution of the samples consumed. -/
theorem visitOffsets_mono (x h : List ℚ) (b : Nat) (hb : 1 ≤ b) :
    ∀ (m p : Nat) (out : List ℚ), out.length = x.length + h.length - 1 →
      (∀ n, out.getD n 0 = convolutionUpTo x h p n) →
      (∀ k : Nat, k < m → p + k * b < out.length) →
      ∃ out', visitOffsets (fun i o => convolveAll x (b : Int) i
          [{ blockSize := (b : Int), ir := h, channel := 0, numChannels := 1 }] o)
          (offsetsFrom (p : Int) (b : Int) m) out = .ok out' ∧
        out'.length = x.length + h.length - 1 ∧
        ∀ n, out'.getD n 0 = convolutionUpTo x h (p + m * b) n := by
  intro m
  induction m with
  | zero =>
    intro p out hlen hinv _
    exact ⟨out, by simp [offsetsFrom, visitOffsets], hlen, by simpa using hinv⟩
  | succ m ih =>
    intro p out hlen hinv hbelow
    have hp : p < out.length := by simpa using hbelow 0 (by omega)
    obtain ⟨o1, hstep, hlen1, hget1⟩ := convolveAll_mono x h out b p hb hlen hp
    have hinv1 : ∀ n, o1.getD n 0 = convolutionUpTo x h (p + b) n := by
      intro n
      rw [hget1 n, hinv n, convolutionUpTo_step]
    obtain ⟨o2, hrest, hlen2, hget2⟩ := ih (p + b) o1 (by rw [hlen1, hlen]) hinv1 (by
      intro k hk
      have := hbelow (k + 1) (by omega)
      rw [hlen1]
      have e : p + (k + 1) * b = p + b + k * b := by ring
      omega)
    refine ⟨o2, ?_, hlen2, ?_⟩
    · rw [offsetsFrom_succ]
      simp only [visitOffsets, hstep]
      have hcast : (p : Int) + (b : Int) = ((p + b : Nat) : Int) := by push_cast; rfl
      rw [hcast]
      exact hrest
    · intro n
      rw [hget2 n]
      congr 1
      ring

/-- What `run` does for a mono input and a mono impulse response, up to the
block loop. -/
theorem run_mono_unfold (x h : List ℚ) (srIn srIr : Int) (b fuel : Nat) (hb : 1 ≤ b)
    (hlen : 1 ≤ x.length + h.length) :
    run { Format := { NumChannels := 1, SampleRate := srIn }, Data := x }
        { Format := { NumChannels := 1, SampleRate := srIr }, Data := h } (b : Int) fuel
      = blockLoop (fun i o => convolveAll x (b : Int) i
          [{ blockSize := (b : Int), ir := h, channel := 0, numChannels := 1 }] o)
          (b : Int) ((x.length + h.length - 1 : Nat) : Int) fuel 0
          (List.replicate (x.length + h.length - 1) 0) := by
  have hb0 : ¬ ((b : Int) ≤ 0) := by omega
  have halloc := allocOut_length
    { Format := { NumChannels := 1, SampleRate := srIn }, Data := x }
    { Format := { NumChannels := 1, SampleRate := srIr }, Data := h } hlen
  simp only [run, splitChannels_mono, halloc]
  simp [newConvolvers, irChannel, index, NewConvolver, hb0]

/-- C4: for a non-empty mono input `x` of `N` samples, a non-empty mono impulse
response `h` of `M` samples and a block size `B ≥ 1`, the block loop of `run`
ends (any fuel of at least `N + M` rounds is enough) without a failure, and
the output buffer then holds the full linear convolution,
`out[n] = sum over k of x[k] * h[n-k]` for every `n < N + M - 1`. For
`x = [1, 0, 0, 0]`, `h = [0.5, 0.25, 0.125]` and `B = 4` the buffer is
`[0.5, 0.25, 0.125, 0, 0, 0]`. -/
theorem run_mono_linear_convolution (x h : List ℚ) (srIn srIr : Int) (B : Int)
    (hx : x ≠ []) (hh : h ≠ []) (hB : 1 ≤ B) :
    (∃ out : List ℚ,
      (∀ fuel : Nat, x.length + h.length ≤ fuel →
        run { Format := { NumChannels := 1, SampleRate := srIn }, Data := x }
            { Format := { NumChannels := 1, SampleRate := srIr }, Data := h } B fuel
          = some (.ok out)) ∧
      out.length = x.length + h.length - 1 ∧
      ∀ n, n < x.length + h.length - 1 → out[n]? = some (linearConvolution x h n)) ∧
    run { Format := { NumChannels := 1, SampleRate := 44100 }, Data := [1, 0, 0, 0] }
        { Format := { NumChannels := 1, SampleRate := 44100 }, Data := [1 / 2, 1 / 4, 1 / 8] }
        4 7
      = some (.ok [1 / 2, 1 / 4, 1 / 8, 0, 0, 0]) := by
  constructor
  · obtain ⟨b, rfl⟩ := Int.eq_ofNat_of_zero_le (by omega : 0 ≤ B)
    have hb : 1 ≤ b := by omega
    have hN : 1 ≤ x.length := List.length_pos.mpr hx
    have hM : 1 ≤ h.length := List.length_pos.mpr hh
    have hbq : (0 : ℚ) < ((b : Int) : ℚ) := by exact_mod_cast hb
    obtain ⟨hbelow, habove⟩ := ceil_offsets (b : Int) (x.length + h.length - 1) (by omega)
    have hbelowN : ∀ k : Nat,
        k < ⌈((x.length + h.length - 1 : Nat) : ℚ) / ((b : Int) : ℚ)⌉₊ →
        k * b < x.length + h.length - 1 := by
      intro k hk
      exact_mod_cast hbelow k hk
    have haboveN : x.length + h.length - 1
        ≤ ⌈((x.length + h.length - 1 : Nat) : ℚ) / ((b : Int) : ℚ)⌉₊ * b := by
      exact_mod_cast habove
    have hm : ⌈((x.length + h.length - 1 : Nat) : ℚ) / ((b : Int) : ℚ)⌉₊
        ≤ x.length + h.length - 1 := by
      rcases Nat.eq_zero_or_pos
        ⌈((x.length + h.length - 1 : Nat) : ℚ) / ((b : Int) : ℚ)⌉₊ with h0 | hpos
      · omega
      · have h1 := hbelowN
          (⌈((x.length + h.length - 1 : Nat) : ℚ) / ((b : Int) : ℚ)⌉₊ - 1) (by omega)
        have h2 : ⌈((x.length + h.length - 1 : Nat) : ℚ) / ((b : Int) : ℚ)⌉₊ - 1
            ≤ (⌈((x.length + h.length - 1 : Nat) : ℚ) / ((b : Int) : ℚ)⌉₊ - 1) * b :=
          Nat.le_mul_of_pos_right _ hb
        omega
    obtain ⟨out, hvisit, hlen, hget⟩ := visitOffsets_mono x h b hb
      ⌈((x.length + h.length - 1 : Nat) : ℚ) / ((b : Int) : ℚ)⌉₊ 0
      (List.replicate (x.length + h.length - 1) 0) (by simp)
      (by intro n; simp [convolutionUpTo])
      (by intro k hk; simpa using hbelowN k hk)
    refine ⟨out, ?_, hlen, ?_⟩
    · intro fuel hfuel
      rw [run_mono_unfold x h srIn srIr b fuel hb (by omega),
        blockLoop_ceil _ (b : Int) (x.length + h.length - 1) (by omega) _ fuel (by omega)]
      have hz : ((0 : Nat) : Int) = 0 := rfl
      rw [← hz, hvisit]
    · intro n hn
      have hval := hget n
      rw [convolutionUpTo_full x h _ n (by omega)] at hval
      have hnlt : n < out.length := by omega
      rw [List.getElem?_eq_getElem hnlt]
      rw [List.getD_eq_getElem _ _ hnlt] at hval
      rw [hval]
  · simp [run, splitChannels, forRange, index, Int.tdiv, newConvolvers, irChannel, NewConvolver,
      allocOut, blockLoop, convolveAll, sliceFrom, min, Convolver.Convolve,
      Convolver.contributions, Convolver.partitions, accumulate, addAt, List.range,
      List.range.loop, List.enumFrom, List.replicate]

/-- Witness of C4: the input `[1, 0, 0, 0]`, the impulse response
`[0.5, 0.25, 0.125]` and block size `4`. -/
theorem run_mono_linear_convolution_witness :
    ∃ out : List ℚ,
      (∀ fuel : Nat, ([1, 0, 0, 0] : List ℚ).length + ([1 / 2, 1 / 4, 1 / 8] : List ℚ).length
          ≤ fuel →
        run { Format := { NumChannels := 1, SampleRate := 44100 }, Data := [1, 0, 0, 0] }
            { Format := { NumChannels := 1, SampleRate := 44100 }, Data := [1 / 2, 1 / 4, 1 / 8] }
            4 fuel
          = some (.ok out)) ∧
      out.length = ([1, 0, 0, 0] : List ℚ).length + ([1 / 2, 1 / 4, 1 / 8] : List ℚ).length - 1 ∧
      ∀ n, n < ([1, 0, 0, 0] : List ℚ).length + ([1 / 2, 1 / 4, 1 / 8] : List ℚ).length - 1 →
        out[n]? = some (linearConvolution [1, 0, 0, 0] [1 / 2, 1 / 4, 1 / 8] n) :=
  (run_mono_linear_convolution [1, 0, 0, 0] [1 / 2, 1 / 4, 1 / 8] 44100 44100 4
    (by simp) (by simp) (by decide)).1

end Reverb
